import Mathlib

/-
Verification of the opDetDigitizerWorker worker pool of sbndcode
(src/sbndcode/OpDetSim/opDetDigitizerWorker.h and
src/sbndcode/OpDetSim/sbndPDMapAlg.cxx).

The repository ships only the header of opDetDigitizerWorker; the bodies of
NChannelsToProcess, StartChannelToProcess, MakeWaveforms, the Semaphore
operations, CreateDirectPhotonMap/Lite and the worker-thread loop live in a
.cxx file that is not part of the source tree here.  Those operations are
modelled from the specification (each such definition carries a doc comment
saying so).  sbndPDMapAlg.cxx is present and is embedded directly.
-/

namespace OpDetSim

/-! ## Channel partitioner -/

/-- Modelled from the spec: `opDetDigitizerWorker::NChannelsToProcess`
(declared at opDetDigitizerWorker.h:62; the defining .cxx is absent).
Worker `threadNo` of `nThreads` workers receives `total / nThreads`
channels, plus one extra channel when `threadNo < total % nThreads`
(the first `total % nThreads` workers get the extra channel). -/
def NChannelsToProcess (threadNo nThreads total : ℕ) : ℕ :=
  total / nThreads + (if threadNo < total % nThreads then 1 else 0)

/-- Modelled from the spec: `opDetDigitizerWorker::StartChannelToProcess`
(declared at opDetDigitizerWorker.h:63; the defining .cxx is absent).
The start channel of a worker is the cumulative offset of the counts of
workers `0 .. threadNo - 1`. -/
def StartChannelToProcess (threadNo nThreads total : ℕ) : ℕ :=
  ∑ j ∈ Finset.range threadNo, NChannelsToProcess j nThreads total

/-- A worker covers channel `c` when `c` lies in its half-open range. -/
def coversChannel (threadNo nThreads total c : ℕ) : Prop :=
  StartChannelToProcess threadNo nThreads total ≤ c ∧
    c < StartChannelToProcess threadNo nThreads total +
        NChannelsToProcess threadNo nThreads total

instance (threadNo nThreads total c : ℕ) :
    Decidable (coversChannel threadNo nThreads total c) := by
  unfold coversChannel; infer_instance

/-! ## Waveform buffer and the phase-1 builder -/

/-- One digitized waveform (raw::OpDetWaveform contents): a list of ADC
samples. -/
abbrev Waveform : Type := List ℤ

/-- The shared waveform buffer published through SetWaveformHandle
(opDetDigitizerWorker.h:55), one waveform per channel index. -/
abbrev Buffer : Type := ℕ → Waveform

/-- Write waveform `w` at index `i` of the buffer. -/
def updateBuf (buf : Buffer) (i : ℕ) (w : Waveform) : Buffer :=
  fun j => if j = i then w else buf j

/-- Write `digitize c` into the buffer at each index
`c ∈ [start, start + count)`, one index at a time. -/
def writeRange (digitize : ℕ → Waveform) : ℕ → ℕ → Buffer → Buffer
  | _, 0, buf => buf
  | start, count + 1, buf =>
      writeRange digitize (start + 1) count (updateBuf buf start (digitize start))

/-- Modelled from the spec: `opDetDigitizerWorker::MakeWaveforms`
(declared at opDetDigitizerWorker.h:66; the defining .cxx is absent).
The phase-1 builder loops over the worker's own channel range and writes
one digitized waveform per channel of that range into the shared buffer;
`digitize` stands for the external per-device-type digitization
capability applied to the channel's photon record. -/
def MakeWaveforms (threadNo nThreads total : ℕ) (digitize : ℕ → Waveform)
    (buf : Buffer) : Buffer :=
  writeRange digitize (StartChannelToProcess threadNo nThreads total)
    (NChannelsToProcess threadNo nThreads total) buf

/-! ## Counting semaphore -/

/-- State of `opDetDigitizerWorker::Semaphore`
(opDetDigitizerWorker.h:38-48): the internal counter guarded by the
mutex/condition variable.  Mutual exclusion of the C++ code is modelled
by making each semaphore operation a single atomic transition. -/
structure Semaphore where
  count : ℕ

/-- Modelled from the spec: `Semaphore::increment(n)` (declared at
opDetDigitizerWorker.h:41; the defining .cxx is absent) atomically adds
`n` to the counter and wakes waiters. -/
def Semaphore.increment (s : Semaphore) (n : ℕ) : Semaphore :=
  ⟨s.count + n⟩

/-- Modelled from the spec: `Semaphore::decrement(n)` (declared at
opDetDigitizerWorker.h:42; the defining .cxx is absent) blocks until the
counter is at least `n`, then atomically subtracts `n`.  Blocking is
modelled as a guarded transition: the step returns `none` while the
caller must keep waiting and `some` of the new state when it proceeds. -/
def Semaphore.decrement (s : Semaphore) (n : ℕ) : Option Semaphore :=
  if n ≤ s.count then some ⟨s.count - n⟩ else none

/-- One operation issued against the semaphore by some thread. -/
inductive SemOp where
  | inc : ℕ → SemOp
  | dec : ℕ → SemOp

/-- Apply one atomic semaphore operation. -/
def SemOp.applyTo (s : Semaphore) : SemOp → Option Semaphore
  | SemOp.inc n => some (s.increment n)
  | SemOp.dec n => s.decrement n

/-- Run an interleaving of atomic semaphore operations (one list entry
per concurrent thread step that got the mutex next). -/
def runSemTrace (s : Semaphore) : List SemOp → Option Semaphore
  | [] => some s
  | op :: rest =>
      match op.applyTo s with
      | some s2 => runSemTrace s2 rest
      | none => none

/-- Amount an operation adds to the counter. -/
def SemOp.incAmount : SemOp → ℕ
  | SemOp.inc n => n
  | SemOp.dec _ => 0

/-- Amount an operation subtracts from the counter. -/
def SemOp.decAmount : SemOp → ℕ
  | SemOp.inc _ => 0
  | SemOp.dec n => n

/-! ## Worker pool -/

/-- Shared state of the worker pool with `N` worker threads: the two
semaphores, the termination flag, the shared waveform buffer and the set
of worker threads that have exited permanently (a worker not in
`exited` is blocked on the start semaphore between dispatch cycles). -/
structure PoolState (N : ℕ) where
  startSem : ℕ
  finishSem : ℕ
  termFlag : Bool
  buf : Buffer
  exited : Finset (Fin N)

/-- Modelled from the spec: one dispatch cycle of
`opDetDigitizerWorkerThread` (declared at opDetDigitizerWorker.h:81; the
defining .cxx is absent) taken by worker `i`.  The worker acquires one
start token (the step is disabled while no token is available, and an
exited worker takes no further steps), then checks the termination
flag: if set, it exits permanently, touching neither the shared buffer
nor the finish semaphore; otherwise it builds the waveforms of its own
channel range and increments the finish semaphore by one. -/
def workerDispatch {N : ℕ} (total : ℕ) (digitize : ℕ → Waveform)
    (i : Fin N) (s : PoolState N) : Option (PoolState N) :=
  if i ∈ s.exited then none
  else if s.startSem = 0 then none
  else if s.termFlag then
    some { s with startSem := s.startSem - 1, exited := insert i s.exited }
  else
    some { s with startSem := s.startSem - 1,
                  buf := MakeWaveforms i.val N total digitize s.buf,
                  finishSem := s.finishSem + 1 }

/-- Modelled from the spec: the orchestrator's shutdown protocol — set
the termination flag, then release exactly `N` start tokens so every
blocked worker can wake, observe the flag and exit. -/
def shutdownPool {N : ℕ} (s : PoolState N) : PoolState N :=
  { s with termFlag := true, startSem := s.startSem + N }

/-- Run dispatch cycles of the listed workers in order (an interleaving
of the pool); the run is defined only while every listed step is
enabled. -/
def runDispatch {N : ℕ} (total : ℕ) (digitize : ℕ → Waveform) :
    PoolState N → List (Fin N) → Option (PoolState N)
  | s, [] => some s
  | s, i :: rest =>
      match workerDispatch total digitize i s with
      | some s2 => runDispatch total digitize s2 rest
      | none => none

/-! ## Photon index -/

/-- Merge one record into the channel map: the new record is appended to
whatever the channel already holds, never replacing it. -/
def insertMerge {α : Type} (m : ℕ → List α) (ch : ℕ) (rec : List α) :
    ℕ → List α :=
  fun c => if c = ch then m c ++ rec else m c

/-- Merge every record of one input collection into the channel map. -/
def insertAll {α : Type} (m : ℕ → List α) (coll : List (ℕ × List α)) :
    ℕ → List α :=
  coll.foldl (fun m2 p => insertMerge m2 p.1 p.2) m

/-- Modelled from the spec: `opDetDigitizerWorker::CreateDirectPhotonMap`
(declared at opDetDigitizerWorker.h:65; the defining .cxx is absent).
Scans every input SimPhotons collection and builds the map from channel
id to that channel's photon-arrival-time record, merging the
contributions of all collections.  A record is its list of photon
times. -/
def CreateDirectPhotonMap (colls : List (List (ℕ × List ℕ))) : ℕ → List ℕ :=
  colls.foldl insertAll (fun _ => [])

/-- Modelled from the spec: `opDetDigitizerWorker::CreateDirectPhotonMapLite`
(declared at opDetDigitizerWorker.h:64; the defining .cxx is absent).
Same scan for the compact SimPhotonsLite representation, whose records
are binned (tick, photon count) pairs. -/
def CreateDirectPhotonMapLite (colls : List (List (ℕ × List (ℕ × ℕ)))) :
    ℕ → List (ℕ × ℕ) :=
  colls.foldl insertAll (fun _ => [])

/-! ## Per-channel waveform synthesis -/

/-- Modelled from the spec: the per-channel synthesis inside
`MakeWaveforms` — one continuous waveform of the configured sample
count; every sample carries the baseline, the noise contribution, and
the summed single-photon responses of the channel's record.  An empty
record therefore yields a baseline/noise-only waveform. -/
def makeChannelWaveform (nsamples : ℕ) (baseline : ℤ) (noise : ℕ → ℤ)
    (response : ℕ → ℕ → ℤ) (rec : List ℕ) : Waveform :=
  (List.range nsamples).map
    (fun t => baseline + noise t + (rec.map (fun p => response p t)).sum)

/-- Build the waveform of one channel from the photon index; a channel
with no record gets the empty record. -/
def buildChannel (nsamples : ℕ) (baseline : ℤ) (noise : ℕ → ℤ)
    (response : ℕ → ℕ → ℤ) (photonMap : ℕ → List ℕ) (ch : ℕ) : Waveform :=
  makeChannelWaveform nsamples baseline noise response (photonMap ch)

/-! ## One processing unit -/

/-- Run the phase-1 builds of the listed workers, in list order, over
the shared buffer (the list is the order in which the concurrent
workers' disjoint writes happen to land). -/
def runWorkers (nThreads total : ℕ) (digitize : ℕ → Waveform)
    (order : List ℕ) (buf : Buffer) : Buffer :=
  order.foldl (fun b i => MakeWaveforms i nThreads total digitize b) buf

/-- Modelled from the spec: `digitizeUnit` — the orchestrator dispatches
all `nThreads` workers for one processing unit and each writes the
digitized waveforms of its own channel range into the shared buffer;
`digitize` is the fixed per-channel digitization determined by the
PhotonIndex content and the configuration. -/
def digitizeUnit (nThreads total : ℕ) (digitize : ℕ → Waveform)
    (buf : Buffer) : Buffer :=
  runWorkers nThreads total digitize (List.range nThreads) buf

/-! ## Photon-detector-type map (sbndPDMapAlg.cxx) -/

/-- One entry of the JSON array loaded from sbnd_pds_mapping.json; the
code reads its pd_type property. -/
structure PDEntry where
  pd_type : String
deriving DecidableEq

/-- Embedding of `opdet::sbndPDMapAlg`: the constructor
(sbndPDMapAlg.cxx:10-17) fills `PDmap` with the JSON array read from
sbnd_pds_mapping.json; the array contents are kept abstract here. -/
structure sbndPDMapAlg where
  PDmap : List PDEntry
deriving DecidableEq

/-- Embedding of `sbndPDMapAlg::size` (sbndPDMapAlg.cxx:34-37). -/
def sbndPDMapAlg.size (m : sbndPDMapAlg) : ℕ :=
  m.PDmap.length

/-- Embedding of `sbndPDMapAlg::pdType` (sbndPDMapAlg.cxx:28-32): a
guarded lookup that answers the sentinel string for any channel id at
or past the end of the map instead of failing. -/
def sbndPDMapAlg.pdType (m : sbndPDMapAlg) (ch : ℕ) : String :=
  if h : ch < m.PDmap.length then (m.PDmap.get ⟨ch, h⟩).pd_type
  else "There is no such channel"

/-- Embedding of `sbndPDMapAlg::isPDType` (sbndPDMapAlg.cxx:22-26): the
unguarded `PDmap.at(ch)` access throws for an out-of-range channel id,
modelled by `none`. -/
def sbndPDMapAlg.isPDType (m : sbndPDMapAlg) (ch : ℕ) (pdname : String) :
    Option Bool :=
  (m.PDmap.get? ch).map (fun e => e.pd_type == pdname)

/-- Embedding of `opDetDigitizerWorker::Config`
(opDetDigitizerWorker.h:17-36); the two digitizer-maker configurations
and the floating-point sampling parameters are not relevant to any
claim and are left out of the state. -/
structure Config where
  map : sbndPDMapAlg
  nChannels : ℕ
  nThreads : ℕ
  UseLitePhotons : ℤ
  Nsamples : ℕ

/-- Embedding of the `Config` construction: the C++ constructor takes
only the two digitizer-maker configurations, `nChannels` carries the
default member initializer `map.size()` (opDetDigitizerWorker.h:24) and
is not a constructor parameter, and the remaining knobs (worker count,
photon representation, sample count) are populated from the module
configuration, modelled as explicit arguments — none of which feeds
`nChannels`. -/
def Config.construct (map : sbndPDMapAlg) (nThreads : ℕ) (useLite : ℤ)
    (nsamples : ℕ) : Config :=
  ⟨map, map.size, nThreads, useLite, nsamples⟩

end OpDetSim

namespace OpDetSim

/-! ## Lemmas on the partitioner -/

theorem start_zero (nThreads total : ℕ) :
    StartChannelToProcess 0 nThreads total = 0 := by
  simp [StartChannelToProcess]

theorem start_succ (i nThreads total : ℕ) :
    StartChannelToProcess (i + 1) nThreads total
      = StartChannelToProcess i nThreads total
        + NChannelsToProcess i nThreads total := by
  simp [StartChannelToProcess, Finset.sum_range_succ]

theorem start_closed (i nThreads total : ℕ) :
    StartChannelToProcess i nThreads total
      = (total / nThreads) * i + min i (total % nThreads) := by
  induction i with
  | zero => simp [start_zero]
  | succ k ih =>
      rw [start_succ, ih, NChannelsToProcess, Nat.mul_succ]
      rcases Nat.lt_or_ge k (total % nThreads) with hk | hk
      · rw [if_pos hk, Nat.min_eq_left (Nat.le_of_lt hk),
          Nat.min_eq_left hk]
        omega
      · rw [if_neg (Nat.not_lt.mpr hk), Nat.min_eq_right hk,
          Nat.min_eq_right (Nat.le_succ_of_le hk)]
        omega

theorem start_total (nThreads total : ℕ) (hN : 1 ≤ nThreads) :
    StartChannelToProcess nThreads nThreads total = total := by
  rw [start_closed]
  have hmod : total % nThreads < nThreads := Nat.mod_lt _ hN
  have hdm : nThreads * (total / nThreads) + total % nThreads = total :=
    Nat.div_add_mod total nThreads
  rw [Nat.min_eq_right (Nat.le_of_lt hmod), Nat.mul_comm]
  omega

theorem start_mono (nThreads total : ℕ) :
    Monotone (fun i => StartChannelToProcess i nThreads total) := by
  intro a b hab
  simp only [StartChannelToProcess]
  exact Finset.sum_le_sum_of_subset (Finset.range_subset.mpr hab)

/-- Any value between `f 0` and `f N` falls in one of the consecutive
intervals `[f i, f (i+1))`. -/
theorem exists_interval_index (f : ℕ → ℕ) (N c : ℕ) (h0 : f 0 ≤ c)
    (hN : c < f N) : ∃ i, i < N ∧ f i ≤ c ∧ c < f (i + 1) := by
  induction N with
  | zero => omega
  | succ M ih =>
      by_cases hc : c < f M
      · obtain ⟨i, hi, hlo, hhi⟩ := ih hc
        exact ⟨i, Nat.lt_succ_of_lt hi, hlo, hhi⟩
      · exact ⟨M, Nat.lt_succ_self M, Nat.le_of_not_lt hc, hN⟩

theorem covers_unique (nThreads total c i j : ℕ)
    (hi : coversChannel i nThreads total c)
    (hj : coversChannel j nThreads total c) : i = j := by
  by_contra hne
  rcases Nat.lt_or_ge i j with hij | hij
  · have h1 : StartChannelToProcess (i + 1) nThreads total
        ≤ StartChannelToProcess j nThreads total :=
      start_mono nThreads total hij
    rw [start_succ] at h1
    rcases hi with ⟨_, hi2⟩
    rcases hj with ⟨hj1, _⟩
    omega
  · have hij2 : j < i := by omega
    have h1 : StartChannelToProcess (j + 1) nThreads total
        ≤ StartChannelToProcess i nThreads total :=
      start_mono nThreads total hij2
    rw [start_succ] at h1
    rcases hi with ⟨hi1, _⟩
    rcases hj with ⟨_, hj2⟩
    omega

theorem covers_exists (nThreads total c : ℕ) (hN : 1 ≤ nThreads)
    (hc : c < total) : ∃ i, i < nThreads ∧ coversChannel i nThreads total c := by
  have h0 : StartChannelToProcess 0 nThreads total ≤ c := by
    rw [start_zero]; omega
  have hT : c < StartChannelToProcess nThreads nThreads total := by
    rw [start_total nThreads total hN]; exact hc
  obtain ⟨i, hi, hlo, hhi⟩ :=
    exists_interval_index (fun k => StartChannelToProcess k nThreads total)
      nThreads c h0 hT
  refine ⟨i, hi, hlo, ?_⟩
  have := start_succ i nThreads total
  omega

/-- Claim C1: for every `totalChannels ≥ 0` and `workerCount ≥ 1`, the
channel partition computed by `StartChannelToProcess` and
`NChannelsToProcess` gives worker `i` the count `total / N` plus one
extra channel when `i < total % N`, with start equal to the sum of the
counts of workers `0 .. i-1`; the ranges are contiguous, non-overlapping,
their union is exactly `[0, total)`, and any two per-worker counts differ
by at most 1. -/
theorem claim_C1_channel_partition (total N : ℕ) (hN : 1 ≤ N) :
    (∀ i, NChannelsToProcess i N total
        = total / N + (if i < total % N then 1 else 0)) ∧
    (∀ i, StartChannelToProcess i N total
        = ∑ j ∈ Finset.range i, NChannelsToProcess j N total) ∧
    (∀ i, StartChannelToProcess (i + 1) N total
        = StartChannelToProcess i N total + NChannelsToProcess i N total) ∧
    StartChannelToProcess 0 N total = 0 ∧
    StartChannelToProcess N N total = total ∧
    (∀ c, c < total → ∃! i, i < N ∧ coversChannel i N total c) ∧
    (∀ i j, NChannelsToProcess i N total ≤ NChannelsToProcess j N total + 1) := by
  refine ⟨fun i => rfl, fun i => rfl, fun i => start_succ i N total,
    start_zero N total, start_total N total hN, ?_, ?_⟩
  · intro c hc
    obtain ⟨i, hi, hcov⟩ := covers_exists N total c hN hc
    refine ⟨i, ⟨hi, hcov⟩, ?_⟩
    intro j hj
    exact covers_unique N total c j i hj.2 hcov
  · intro i j
    unfold NChannelsToProcess
    split_ifs <;> omega

/-- Concrete instance of claim C1 at `total = 8`, `N = 3`. -/
theorem claim_C1_channel_partition_witness :
    (1 ≤ 3) ∧ StartChannelToProcess 3 3 8 = 8 :=
  ⟨by decide, (claim_C1_channel_partition 8 3 (by decide)).2.2.2.2.1⟩

/-! ## Frame lemmas for the phase-1 builder -/

theorem writeRange_outside (digitize : ℕ → Waveform) :
    ∀ (count start : ℕ) (buf : Buffer) (idx : ℕ),
      idx < start ∨ start + count ≤ idx →
      writeRange digitize start count buf idx = buf idx := by
  intro count
  induction count with
  | zero => intro start buf idx _; rfl
  | succ k ih =>
      intro start buf idx hidx
      show writeRange digitize (start + 1) k
        (updateBuf buf start (digitize start)) idx = buf idx
      rw [ih (start + 1) _ idx (by omega)]
      unfold updateBuf
      rw [if_neg (by omega)]

theorem writeRange_inside (digitize : ℕ → Waveform) :
    ∀ (count start : ℕ) (buf : Buffer) (idx : ℕ),
      start ≤ idx → idx < start + count →
      writeRange digitize start count buf idx = digitize idx := by
  intro count
  induction count with
  | zero => intro start buf idx h1 h2; omega
  | succ k ih =>
      intro start buf idx h1 h2
      show writeRange digitize (start + 1) k
        (updateBuf buf start (digitize start)) idx = digitize idx
      rcases Nat.eq_or_lt_of_le h1 with heq | hlt
      · rw [writeRange_outside digitize k (start + 1) _ idx (by omega)]
        unfold updateBuf
        rw [if_pos heq.symm, heq]
      · exact ih (start + 1) _ idx hlt (by omega)

/-- Claim C2: one call of the phase-1 builder for a worker with channel
range `(start, count)` writes exactly the buffer entries at indices
`start .. start+count-1` (each receives its digitized waveform) and
leaves every index outside that range unchanged. -/
theorem claim_C2_makewaveforms_frame (threadNo nThreads total : ℕ)
    (digitize : ℕ → Waveform) (buf : Buffer) :
    (∀ idx, StartChannelToProcess threadNo nThreads total ≤ idx →
      idx < StartChannelToProcess threadNo nThreads total +
            NChannelsToProcess threadNo nThreads total →
      MakeWaveforms threadNo nThreads total digitize buf idx = digitize idx) ∧
    (∀ idx, idx < StartChannelToProcess threadNo nThreads total ∨
      StartChannelToProcess threadNo nThreads total +
        NChannelsToProcess threadNo nThreads total ≤ idx →
      MakeWaveforms threadNo nThreads total digitize buf idx = buf idx) := by
  constructor
  · intro idx h1 h2
    exact writeRange_inside digitize _ _ buf idx h1 h2
  · intro idx hidx
    exact writeRange_outside digitize _ _ buf idx hidx

/-- Concrete instance of claim C2: worker 0 of 3 over 8 channels owns
`[0, 3)`; it writes the digitized waveform at channel 1 and leaves
channel 5 untouched. -/
theorem claim_C2_makewaveforms_frame_witness :
    MakeWaveforms 0 3 8 (fun c => [(c : ℤ)]) (fun _ => []) 1 = [(1 : ℤ)] ∧
    MakeWaveforms 0 3 8 (fun c => [(c : ℤ)]) (fun _ => []) 5 = [] :=
  ⟨(claim_C2_makewaveforms_frame 0 3 8 (fun c => [(c : ℤ)]) (fun _ => [])).1 1
      (by decide) (by decide),
   (claim_C2_makewaveforms_frame 0 3 8 (fun c => [(c : ℤ)]) (fun _ => [])).2 5
      (by decide)⟩

/-! ## Semaphore lemmas -/

theorem runSemTrace_accounting :
    ∀ (ops : List SemOp) (s t : Semaphore),
      runSemTrace s ops = some t →
      t.count + (ops.map SemOp.decAmount).sum
        = s.count + (ops.map SemOp.incAmount).sum := by
  intro ops
  induction ops with
  | nil =>
      intro s t h
      simp only [runSemTrace, Option.some.injEq] at h
      simp [← h]
  | cons op rest ih =>
      intro s t h
      cases op with
      | inc n =>
          simp only [runSemTrace, SemOp.applyTo] at h
          have := ih _ _ h
          simp only [List.map_cons, List.sum_cons, SemOp.incAmount,
            SemOp.decAmount]
          simp only [Semaphore.increment] at this
          omega
      | dec n =>
          simp only [runSemTrace, SemOp.applyTo, Semaphore.decrement] at h
          by_cases hn : n ≤ s.count
          · rw [if_pos hn] at h
            have hrec := ih _ _ h
            have hcc : (Semaphore.mk (s.count - n)).count = s.count - n := rfl
            rw [hcc] at hrec
            simp only [List.map_cons, List.sum_cons, SemOp.incAmount,
              SemOp.decAmount]
            omega
          · rw [if_neg hn] at h
            cases h

/-- Claim C3: `increment(n)` atomically adds `n` to the counter and
wakes waiters; `decrement(n)` proceeds exactly when the counter is at
least `n` and then atomically subtracts `n` (it stays blocked while the
counter is below `n`, and becomes runnable once increments bring the
counter to `n` or more); under any interleaving of concurrent
incrementers and decrementers the counter balances exactly. -/
theorem claim_C3_semaphore_contract (s : Semaphore) (n : ℕ) (hn : 1 ≤ n) :
    (s.increment n).count = s.count + n ∧
    (∀ t, s.decrement n = some t ↔ n ≤ s.count ∧ t = ⟨s.count - n⟩) ∧
    (s.decrement n = none ↔ s.count < n) ∧
    (∀ m, n ≤ s.count + m → ((s.increment m).decrement n).isSome = true) ∧
    (∀ ops t, runSemTrace s ops = some t →
      t.count + (ops.map SemOp.decAmount).sum
        = s.count + (ops.map SemOp.incAmount).sum) := by
  refine ⟨rfl, ?_, ?_, ?_, fun ops t h => runSemTrace_accounting ops s t h⟩
  · intro t
    unfold Semaphore.decrement
    by_cases hc : n ≤ s.count
    · rw [if_pos hc]
      constructor
      · intro h
        exact ⟨hc, (Option.some.injEq _ _).mp h.symm⟩
      · intro h
        rw [h.2]
    · rw [if_neg hc]
      constructor
      · intro h; cases h
      · intro h; omega
  · unfold Semaphore.decrement
    by_cases hc : n ≤ s.count
    · rw [if_pos hc]
      constructor
      · intro h; cases h
      · intro h; omega
    · rw [if_neg hc]
      constructor
      · intro _; omega
      · intro _; rfl
  · intro m hm
    unfold Semaphore.decrement Semaphore.increment
    rw [if_pos (by simpa using hm)]
    rfl

/-- Concrete instance of claim C3: a semaphore at 1 lets `decrement 1`
proceed to 0, and a `decrement 2` blocked at count 1 is woken by
`increment 1`. -/
theorem claim_C3_semaphore_contract_witness :
    (1 ≤ 1) ∧ (Semaphore.decrement ⟨1⟩ 1 = none ↔ (1 : ℕ) < 1) :=
  ⟨by decide, (claim_C3_semaphore_contract ⟨1⟩ 1 (by decide)).2.2.1⟩

/-! ## Termination protocol lemmas -/

theorem dispatch_term_step {N : ℕ} (total : ℕ) (d : ℕ → Waveform)
    (i : Fin N) (s t : PoolState N) (hflag : s.termFlag = true)
    (hstep : workerDispatch total d i s = some t) :
    t.termFlag = true ∧ t.buf = s.buf ∧ t.finishSem = s.finishSem ∧
    i ∈ t.exited ∧
    t.startSem + t.exited.card = s.startSem + s.exited.card := by
  unfold workerDispatch at hstep
  by_cases hi : i ∈ s.exited
  · rw [if_pos hi] at hstep; cases hstep
  · rw [if_neg hi] at hstep
    by_cases h0 : s.startSem = 0
    · rw [if_pos h0] at hstep; cases hstep
    · rw [if_neg h0, hflag, if_pos rfl] at hstep
      cases hstep
      refine ⟨rfl, rfl, rfl, Finset.mem_insert_self i s.exited, ?_⟩
      have hcard : (insert i s.exited).card = s.exited.card + 1 :=
        Finset.card_insert_of_not_mem hi
      show s.startSem - 1 + (insert i s.exited).card
          = s.startSem + s.exited.card
      omega

theorem runDispatch_term_invariant {N : ℕ} (total : ℕ) (d : ℕ → Waveform) :
    ∀ (trace : List (Fin N)) (s t : PoolState N), s.termFlag = true →
      runDispatch total d s trace = some t →
      t.termFlag = true ∧
      t.startSem + t.exited.card = s.startSem + s.exited.card := by
  intro trace
  induction trace with
  | nil =>
      intro s t hflag h
      simp only [runDispatch, Option.some.injEq] at h
      subst h
      exact ⟨hflag, rfl⟩
  | cons i rest ih =>
      intro s t hflag h
      simp only [runDispatch] at h
      cases hstep : workerDispatch total d i s with
      | none => rw [hstep] at h; cases h
      | some s2 =>
          rw [hstep] at h
          obtain ⟨hf2, _, _, _, hsum⟩ :=
            dispatch_term_step total d i s s2 hflag hstep
          obtain ⟨hf3, hsum2⟩ := ih s2 t hf2 h
          exact ⟨hf3, by omega⟩

theorem dispatch_enabled {N : ℕ} (total : ℕ) (d : ℕ → Waveform)
    (i : Fin N) (t : PoolState N) (hflag : t.termFlag = true)
    (hsum : t.startSem + t.exited.card = N) (hi : i ∉ t.exited) :
    (workerDispatch total d i t).isSome = true := by
  have hcard : (insert i t.exited).card = t.exited.card + 1 :=
    Finset.card_insert_of_not_mem hi
  have hle : (insert i t.exited).card ≤ N := by
    have := Finset.card_le_univ (insert i t.exited)
    simpa using this
  have hpos : t.startSem ≠ 0 := by omega
  unfold workerDispatch
  rw [if_neg hi, if_neg hpos, hflag, if_pos rfl]
  rfl

/-- Claim C4: a worker that acquires a start token while the
termination flag is set exits permanently, writing no shared buffer and
never incrementing the finish semaphore, and an exited worker takes no
further steps; shutdown releases exactly `N` start tokens after setting
the flag; and from a quiescent pool (all `N` workers blocked, no start
tokens) that is shut down, after any interleaving of dispatch steps
every not-yet-exited worker still has its (exit) step enabled, so no
worker remains blocked on the start semaphore forever. -/
theorem claim_C4_termination_protocol (N total : ℕ) (d : ℕ → Waveform) :
    (∀ (s t : PoolState N) (i : Fin N), s.termFlag = true →
      workerDispatch total d i s = some t →
      t.buf = s.buf ∧ t.finishSem = s.finishSem ∧ i ∈ t.exited) ∧
    (∀ (s : PoolState N) (i : Fin N), i ∈ s.exited →
      workerDispatch total d i s = none) ∧
    (∀ s : PoolState N, (shutdownPool s).termFlag = true ∧
      (shutdownPool s).startSem = s.startSem + N) ∧
    (∀ (s0 : PoolState N) (trace : List (Fin N)) (t : PoolState N),
      s0.startSem = 0 → s0.exited = ∅ →
      runDispatch total d (shutdownPool s0) trace = some t →
      ∀ i : Fin N, i ∉ t.exited →
        (workerDispatch total d i t).isSome = true) := by
  refine ⟨?_, ?_, fun s => ⟨rfl, rfl⟩, ?_⟩
  · intro s t i hflag hstep
    obtain ⟨_, hbuf, hfin, hmem, _⟩ := dispatch_term_step total d i s t hflag hstep
    exact ⟨hbuf, hfin, hmem⟩
  · intro s i hi
    unfold workerDispatch
    rw [if_pos hi]
  · intro s0 trace t h0 hex hrun i hi
    have hflag : (shutdownPool s0).termFlag = true := rfl
    obtain ⟨hft, hsum⟩ :=
      runDispatch_term_invariant total d trace (shutdownPool s0) t hflag hrun
    have hstart : (shutdownPool s0).startSem = s0.startSem + N := rfl
    have hexd : (shutdownPool s0).exited = s0.exited := rfl
    rw [hstart, hexd, h0, hex] at hsum
    simp only [Finset.card_empty] at hsum
    exact dispatch_enabled total d i t hft (by omega) hi
/-- Concrete instance of claim C4 at `N = 2`: shutdown of a quiescent
two-worker pool sets the flag and releases exactly two start tokens. -/
theorem claim_C4_termination_protocol_witness :
    (shutdownPool (PoolState.mk 0 0 false (fun _ => []) (∅ : Finset (Fin 2)))).termFlag
        = true ∧
    (shutdownPool (PoolState.mk 0 0 false (fun _ => []) (∅ : Finset (Fin 2)))).startSem
        = 0 + 2 :=
  (claim_C4_termination_protocol 2 8 (fun _ => [])).2.2.1
    (PoolState.mk 0 0 false (fun _ => []) ∅)

/-! ## Zero-length ranges and the finish rendezvous -/

theorem makeWaveforms_count_zero (i nThreads total : ℕ)
    (d : ℕ → Waveform) (buf : Buffer)
    (h : NChannelsToProcess i nThreads total = 0) :
    MakeWaveforms i nThreads total d buf = buf := by
  unfold MakeWaveforms
  rw [h]
  rfl

theorem dispatch_work_step {N : ℕ} (total : ℕ) (d : ℕ → Waveform)
    (i : Fin N) (s t : PoolState N) (hflag : s.termFlag = false)
    (hstep : workerDispatch total d i s = some t) :
    t.termFlag = false ∧ t.finishSem = s.finishSem + 1 ∧
    t.buf = MakeWaveforms i.val N total d s.buf := by
  unfold workerDispatch at hstep
  by_cases hi : i ∈ s.exited
  · rw [if_pos hi] at hstep; cases hstep
  · rw [if_neg hi] at hstep
    by_cases h0 : s.startSem = 0
    · rw [if_pos h0] at hstep; cases hstep
    · rw [if_neg h0, hflag] at hstep
      simp only [Bool.false_eq_true, if_false, Option.some.injEq] at hstep
      subst hstep
      exact ⟨rfl, rfl, rfl⟩

theorem runDispatch_work_count {N : ℕ} (total : ℕ) (d : ℕ → Waveform) :
    ∀ (trace : List (Fin N)) (s t : PoolState N), s.termFlag = false →
      runDispatch total d s trace = some t →
      t.finishSem = s.finishSem + trace.length := by
  intro trace
  induction trace with
  | nil =>
      intro s t hflag h
      simp only [runDispatch, Option.some.injEq] at h
      subst h
      rfl
  | cons i rest ih =>
      intro s t hflag h
      simp only [runDispatch] at h
      cases hstep : workerDispatch total d i s with
      | none => rw [hstep] at h; cases h
      | some s2 =>
          rw [hstep] at h
          obtain ⟨hf2, hfin, _⟩ := dispatch_work_step total d i s s2 hflag hstep
          have := ih s2 t hf2 h
          simp only [List.length_cons]
          omega

/-- Claim C5: when the worker count `N` exceeds `total`, the trailing
workers get zero-length ranges; such a worker's phase-1 build writes
nothing into the shared buffer, yet its dispatch cycle still increments
the finish semaphore exactly once; every dispatch cycle of a
non-terminating unit raises the finish counter by one per worker, so
once all `N` workers have signalled, the orchestrator's bulk
`decrement(N)` rendezvous completes. -/
theorem claim_C5_zero_range_workers (N total : ℕ) (d : ℕ → Waveform) :
    (∀ i, total < N → total ≤ i → NChannelsToProcess i N total = 0) ∧
    (∀ (i : ℕ) (buf : Buffer), NChannelsToProcess i N total = 0 →
      MakeWaveforms i N total d buf = buf) ∧
    (∀ (s : PoolState N) (i : Fin N), s.termFlag = false →
      NChannelsToProcess i.val N total = 0 →
      ∀ t, workerDispatch total d i s = some t →
        t.buf = s.buf ∧ t.finishSem = s.finishSem + 1) ∧
    (∀ (trace : List (Fin N)) (s t : PoolState N), s.termFlag = false →
      trace.length = N → runDispatch total d s trace = some t →
      t.finishSem = s.finishSem + N) ∧
    (∀ f : ℕ, Semaphore.decrement ⟨f + N⟩ N = some ⟨f⟩) := by
  refine ⟨?_, ?_, ?_, ?_, ?_⟩
  · intro i hN hi
    unfold NChannelsToProcess
    have hdiv : total / N = 0 := Nat.div_eq_of_lt hN
    have hmod : total % N = total := Nat.mod_eq_of_lt hN
    rw [hdiv, hmod, if_neg (Nat.not_lt.mpr hi)]
  · intro i buf h
    exact makeWaveforms_count_zero i N total d buf h
  · intro s i hflag hcount t hstep
    obtain ⟨_, hfin, hbuf⟩ := dispatch_work_step total d i s t hflag hstep
    rw [hbuf, makeWaveforms_count_zero i.val N total d s.buf hcount]
    exact ⟨rfl, hfin⟩
  · intro trace s t hflag hlen hrun
    have := runDispatch_work_count total d trace s t hflag hrun
    omega
  · intro f
    have hc : (Semaphore.mk (f + N)).count = f + N := rfl
    unfold Semaphore.decrement
    rw [if_pos (by omega)]
    simp [hc]

/-- Concrete instance of claim C5 at `N = 3`, `total = 2`: worker 2 has
a zero-length range, and three finish signals complete a `decrement 3`
from zero. -/
theorem claim_C5_zero_range_workers_witness :
    NChannelsToProcess 2 3 2 = 0 ∧
    Semaphore.decrement ⟨0 + 3⟩ 3 = some ⟨0⟩ :=
  ⟨(claim_C5_zero_range_workers 3 2 (fun _ => [])).1 2 (by decide) (by decide),
   (claim_C5_zero_range_workers 3 2 (fun _ => [])).2.2.2.2 0⟩

/-! ## Photon index lemmas -/

theorem insertAll_apply {α : Type} :
    ∀ (coll : List (ℕ × List α)) (m : ℕ → List α) (ch : ℕ),
      insertAll m coll ch
        = m ch ++ ((coll.filter (fun p => p.1 = ch)).map Prod.snd).flatten := by
  intro coll
  induction coll with
  | nil => intro m ch; simp [insertAll]
  | cons p rest ih =>
      intro m ch
      have hstep : insertAll m (p :: rest) = insertAll (insertMerge m p.1 p.2) rest := rfl
      rw [hstep, ih]
      by_cases hp : p.1 = ch
      · simp [insertMerge, hp, List.filter_cons, List.append_assoc]
      · have hp2 : ¬ch = p.1 := fun h => hp h.symm
        simp [insertMerge, hp, hp2, List.filter_cons]

theorem foldl_insertAll_apply {α : Type} :
    ∀ (colls : List (List (ℕ × List α))) (m : ℕ → List α) (ch : ℕ),
      colls.foldl insertAll m ch
        = m ch ++ ((colls.flatten.filter (fun p => p.1 = ch)).map Prod.snd).flatten := by
  intro colls
  induction colls with
  | nil => intro m ch; simp
  | cons c cs ih =>
      intro m ch
      simp only [List.foldl_cons, List.flatten_cons, List.filter_append,
        List.map_append, List.flatten_append]
      rw [ih, insertAll_apply]
      simp [List.append_assoc]

/-- Claim C6: the photon-index construction merges every contributing
record: for every channel, the resulting record is the concatenation of
all records for that channel across all scanned collections (in scan
order), both for the full SimPhotons form and for the lite form — never
just the record of the last collection scanned. -/
theorem claim_C6_photon_map_merge :
    (∀ (colls : List (List (ℕ × List ℕ))) (ch : ℕ),
      CreateDirectPhotonMap colls ch
        = ((colls.flatten.filter (fun p => p.1 = ch)).map Prod.snd).flatten) ∧
    (∀ (colls : List (List (ℕ × List (ℕ × ℕ)))) (ch : ℕ),
      CreateDirectPhotonMapLite colls ch
        = ((colls.flatten.filter (fun p => p.1 = ch)).map Prod.snd).flatten) := by
  constructor
  · intro colls ch
    unfold CreateDirectPhotonMap
    rw [foldl_insertAll_apply]
    rfl
  · intro colls ch
    unfold CreateDirectPhotonMapLite
    rw [foldl_insertAll_apply]
    rfl

/-! ## Missing-channel policy -/

/-- Claim C7: a channel of the worker's range that appears in no input
collection has the empty photon record, and the builder synthesizes for
it a waveform of exactly the configured sample count whose samples are
baseline plus noise only — it never fails for such a channel. -/
theorem claim_C7_missing_channel_baseline
    (colls : List (List (ℕ × List ℕ))) (ch nsamples : ℕ) (baseline : ℤ)
    (noise : ℕ → ℤ) (response : ℕ → ℕ → ℤ)
    (habs : ∀ p ∈ colls.flatten, p.1 ≠ ch) :
    CreateDirectPhotonMap colls ch = [] ∧
    buildChannel nsamples baseline noise response
        (CreateDirectPhotonMap colls) ch
      = (List.range nsamples).map (fun t => baseline + noise t) ∧
    (buildChannel nsamples baseline noise response
        (CreateDirectPhotonMap colls) ch).length = nsamples := by
  have hmap : CreateDirectPhotonMap colls ch = [] := by
    unfold CreateDirectPhotonMap
    rw [foldl_insertAll_apply]
    have hfil : colls.flatten.filter (fun p => p.1 = ch) = [] := by
      rw [List.filter_eq_nil_iff]
      intro p hp
      simpa using habs p hp
    rw [hfil]
    rfl
  refine ⟨hmap, ?_, ?_⟩
  · unfold buildChannel
    rw [hmap]
    unfold makeChannelWaveform
    simp
  · unfold buildChannel makeChannelWaveform
    simp

/-- Concrete instance of claim C7: channel 0 absent from the single
input collection gets a two-sample baseline-plus-noise waveform. -/
theorem claim_C7_missing_channel_baseline_witness :
    CreateDirectPhotonMap [[(1, [5])]] 0 = [] ∧
    buildChannel 2 3 (fun _ => 0) (fun _ _ => 0)
        (CreateDirectPhotonMap [[(1, [5])]]) 0
      = (List.range 2).map (fun t => 3 + (fun _ => (0 : ℤ)) t) ∧
    (buildChannel 2 3 (fun _ => 0) (fun _ _ => 0)
        (CreateDirectPhotonMap [[(1, [5])]]) 0).length = 2 :=
  claim_C7_missing_channel_baseline [[(1, [5])]] 0 2 3 (fun _ => 0)
    (fun _ _ => 0) (by decide)

/-! ## Determinism of a processing unit -/

theorem makeWaveforms_covered (i nThreads total : ℕ) (d : ℕ → Waveform)
    (buf : Buffer) (idx : ℕ) (h : coversChannel i nThreads total idx) :
    MakeWaveforms i nThreads total d buf idx = d idx :=
  writeRange_inside d _ _ buf idx h.1 h.2

theorem makeWaveforms_not_covered (i nThreads total : ℕ) (d : ℕ → Waveform)
    (buf : Buffer) (idx : ℕ) (h : ¬coversChannel i nThreads total idx) :
    MakeWaveforms i nThreads total d buf idx = buf idx := by
  apply writeRange_outside
  unfold coversChannel at h
  omega

theorem runWorkers_not_covered (nThreads total : ℕ) (d : ℕ → Waveform) :
    ∀ (order : List ℕ) (buf : Buffer) (idx : ℕ),
      (∀ i ∈ order, ¬coversChannel i nThreads total idx) →
      runWorkers nThreads total d order buf idx = buf idx := by
  intro order
  induction order with
  | nil => intro buf idx _; rfl
  | cons o rest ih =>
      intro buf idx h
      have hstep : runWorkers nThreads total d (o :: rest) buf
          = runWorkers nThreads total d rest
              (MakeWaveforms o nThreads total d buf) := rfl
      rw [hstep, ih _ idx (fun i hi => h i (List.mem_cons_of_mem o hi)),
        makeWaveforms_not_covered o nThreads total d buf idx
          (h o (List.mem_cons_self o rest))]

theorem runWorkers_covered (nThreads total : ℕ) (d : ℕ → Waveform) :
    ∀ (order : List ℕ) (buf : Buffer) (idx : ℕ),
      (∃ i ∈ order, coversChannel i nThreads total idx) →
      runWorkers nThreads total d order buf idx = d idx := by
  intro order
  induction order with
  | nil => intro buf idx h; simp at h
  | cons o rest ih =>
      intro buf idx h
      have hstep : runWorkers nThreads total d (o :: rest) buf
          = runWorkers nThreads total d rest
              (MakeWaveforms o nThreads total d buf) := rfl
      rw [hstep]
      by_cases hrest : ∃ i ∈ rest, coversChannel i nThreads total idx
      · exact ih _ idx hrest
      · push_neg at hrest
        obtain ⟨i, hi, hcov⟩ := h
        have hio : i = o := by
          rcases List.mem_cons.mp hi with h1 | h2
          · exact h1
          · exact absurd hcov (hrest i h2)
        subst hio
        rw [runWorkers_not_covered nThreads total d rest _ idx hrest]
        exact makeWaveforms_covered i nThreads total d buf idx hcov

/-- Claim C8: for a fixed PhotonIndex content and configuration (a fixed
per-channel digitization function), any two complete executions of the
unit — any write interleavings, any prior buffer contents — produce
bit-identical waveform-buffer contents on `[0, total)`; in particular
running `digitizeUnit` twice gives bit-identical contents. -/
theorem claim_C8_digitize_deterministic (nThreads total : ℕ)
    (hN : 1 ≤ nThreads) (digitize : ℕ → Waveform) :
    (∀ (order1 order2 : List ℕ) (buf1 buf2 : Buffer),
      (∀ i, i < nThreads → i ∈ order1) →
      (∀ i, i < nThreads → i ∈ order2) →
      ∀ idx, idx < total →
        runWorkers nThreads total digitize order1 buf1 idx
          = runWorkers nThreads total digitize order2 buf2 idx) ∧
    (∀ (buf : Buffer) (idx : ℕ), idx < total →
      digitizeUnit nThreads total digitize
          (digitizeUnit nThreads total digitize buf) idx
        = digitizeUnit nThreads total digitize buf idx) := by
  have hmain : ∀ (order : List ℕ) (buf : Buffer),
      (∀ i, i < nThreads → i ∈ order) →
      ∀ idx, idx < total →
        runWorkers nThreads total digitize order buf idx = digitize idx := by
    intro order buf horder idx hidx
    obtain ⟨i, hi, hcov⟩ := covers_exists nThreads total idx hN hidx
    exact runWorkers_covered nThreads total digitize order buf idx
      ⟨i, horder i hi, hcov⟩
  constructor
  · intro order1 order2 buf1 buf2 h1 h2 idx hidx
    rw [hmain order1 buf1 h1 idx hidx, hmain order2 buf2 h2 idx hidx]
  · intro buf idx hidx
    unfold digitizeUnit
    rw [hmain (List.range nThreads) _ (fun i hi => List.mem_range.mpr hi) idx hidx,
      hmain (List.range nThreads) buf (fun i hi => List.mem_range.mpr hi) idx hidx]

/-- Concrete instance of claim C8 at `nThreads = 3`, `total = 8`: two
different worker interleavings from two different prior buffers agree at
channel 5. -/
theorem claim_C8_digitize_deterministic_witness :
    runWorkers 3 8 (fun c => [(c : ℤ)]) [2, 0, 1] (fun _ => []) 5
      = runWorkers 3 8 (fun c => [(c : ℤ)]) [0, 1, 2] (fun _ => [7]) 5 :=
  (claim_C8_digitize_deterministic 3 8 (by decide) (fun c => [(c : ℤ)])).1
    [2, 0, 1] [0, 1, 2] (fun _ => []) (fun _ => [7])
    (by decide) (by decide) 5 (by decide)

/-! ## Channel count and channel-type lookups -/

/-- Claim C9: the total channel count used by the pool,
`Config::nChannels`, always equals the size of the photon-detector-type
map loaded from sbnd_pds_mapping.json (`sbndPDMapAlg::size()`); no other
configuration input can change it. -/
theorem claim_C9_nchannels_equals_map_size :
    ∀ (m : sbndPDMapAlg) (nt1 nt2 : ℕ) (ul1 ul2 : ℤ) (ns1 ns2 : ℕ),
      (Config.construct m nt1 ul1 ns1).nChannels
        = (Config.construct m nt1 ul1 ns1).map.size ∧
      (Config.construct m nt1 ul1 ns1).nChannels
        = (Config.construct m nt2 ul2 ns2).nChannels :=
  fun _ _ _ _ _ _ _ => ⟨rfl, rfl⟩

/-- Claim C10: for every channel id at or past the map size,
`sbndPDMapAlg::pdType` returns the sentinel string without failing,
while `sbndPDMapAlg::isPDType` performs an unguarded `at(ch)` access
and is undefined there (it is defined exactly on in-range ids). -/
theorem claim_C10_out_of_range_lookup (m : sbndPDMapAlg) (ch : ℕ)
    (pdname : String) (h : m.size ≤ ch) :
    m.pdType ch = "There is no such channel" ∧
    m.isPDType ch pdname = none ∧
    (∀ ch2, ch2 < m.size → (m.isPDType ch2 pdname).isSome = true) := by
  refine ⟨?_, ?_, ?_⟩
  · unfold sbndPDMapAlg.pdType
    rw [dif_neg (by unfold sbndPDMapAlg.size at h; omega)]
  · unfold sbndPDMapAlg.isPDType
    have hnone : m.PDmap.get? ch = none := by
      rw [List.get?_eq_none]
      unfold sbndPDMapAlg.size at h
      omega
    rw [hnone]
    rfl
  · intro ch2 hch2
    unfold sbndPDMapAlg.isPDType
    have hlt : ch2 < m.PDmap.length := by
      unfold sbndPDMapAlg.size at hch2; omega
    cases hg : m.PDmap.get? ch2 with
    | none => rw [List.get?_eq_none] at hg; omega
    | some e => rfl

/-- Concrete instance of claim C10: a one-entry map queried at channel
3 answers the sentinel from pdType and no value from isPDType. -/
theorem claim_C10_out_of_range_lookup_witness :
    sbndPDMapAlg.pdType ⟨[⟨"pmt"⟩]⟩ 3 = "There is no such channel" ∧
    sbndPDMapAlg.isPDType ⟨[⟨"pmt"⟩]⟩ 3 "pmt" = none ∧
    (∀ ch2, ch2 < sbndPDMapAlg.size ⟨[⟨"pmt"⟩]⟩ →
      (sbndPDMapAlg.isPDType ⟨[⟨"pmt"⟩]⟩ ch2 "pmt").isSome = true) :=
  claim_C10_out_of_range_lookup ⟨[⟨"pmt"⟩]⟩ 3 "pmt" (by decide)

end OpDetSim
